import Mathlib

/-!
Verification of the feed-aggregation core of `rss_aggregator.py`.

The embedding models the pure content of the program:

* `RawEntry` / `Feed` model what the feed-parsing library hands back for one
  entry and for one parsed document; absent keys are `none`.
* the external date-parsing routine is a parameter `pd : String → Option Int`
  (`none` models the parse error that the per-entry handler catches);
  timestamps are instants on an integer time line, so the aware-datetime
  comparison `pub_date >= cutoff_date` becomes `cutoff ≤ d`.
* fetching plus document-level parsing of one URL is a parameter
  `fp : String → Option Feed`; `none` models the exceptions caught by the
  per-feed handlers (request error or any document-level failure).
* the Python `set` of seen links is a `List String` used up to membership;
  `set.add` is modelled by consing the (necessarily fresh) link.
* the Python insertion-ordered dict `new_articles_by_feed` is an association
  list; assignment to an existing key replaces the value in place, otherwise
  it appends.
* `list.sort(key=..., reverse=True)` is a stable descending sort, embedded as
  insertion sort `sortDesc`, which is provably sorted and stable.
-/

namespace RSS

/-- One raw syndication entry as the feed-parsing library exposes it; each
field models `entry.get(...)` with `none` for an absent key. -/
structure RawEntry where
  link : Option String
  title : Option String
  published : Option String
  updated : Option String
deriving DecidableEq

/-- A parsed feed document: the document-level title (`feed.feed.get('title')`)
and the entry list (`feed.entries`). -/
structure Feed where
  title : Option String
  entries : List RawEntry
deriving DecidableEq

/-- A normalized article, the dict appended to `new_entries`
(line 89-93 of the source). -/
structure Article where
  title : String
  link : String
  date : Int
deriving DecidableEq

/-- Publication-date string selection of line 78:
`entry.get('published', entry.get('updated'))`. -/
def pubDateStr (e : RawEntry) : Option String :=
  match e.published with
  | some s => some s
  | none => e.updated

/-- The article dict built at lines 89-93: title defaulting to the
placeholder, the entry link, the parsed date. -/
def mkArticle (e : RawEntry) (link : String) (d : Int) : Article :=
  ⟨e.title.getD "No Title", link, d⟩

/-- Body of the per-entry loop (lines 72-96).  State is the pair
`(new_entries, seen_urls)`.  An entry with a falsy (`none` or empty) link or
an already-seen link is skipped; a falsy date string is skipped; a date-parse
failure (`pd _ = none`) is skipped; otherwise the entry is kept exactly when
`pub_date >= cutoff_date`, appending the article and adding its link to the
seen set. -/
def processEntry (pd : String → Option Int) (cutoff : Int)
    (st : List Article × List String) (e : RawEntry) : List Article × List String :=
  match e.link with
  | none => st
  | some link =>
    if link = "" ∨ link ∈ st.2 then st
    else
      match pubDateStr e with
      | none => st
      | some s =>
        if s = "" then st
        else
          match pd s with
          | none => st
          | some d =>
            if cutoff ≤ d then
              (st.1 ++ [mkArticle e link d], link :: st.2)
            else st

/-- The whole entry loop of one feed, starting from `new_entries = []` and
the seen set as it stands when the feed is reached. -/
def processFeed (pd : String → Option Int) (cutoff : Int)
    (seen : List String) (f : Feed) : List Article × List String :=
  f.entries.foldl (processEntry pd cutoff) ([], seen)

/-- Stable descending insertion: the new article goes in front of the first
resident whose date is not larger, so residents with strictly larger dates
stay ahead and the order among equal dates is preserved. -/
def orderedInsertDesc (a : Article) : List Article → List Article
  | [] => [a]
  | b :: bs => if b.date ≤ a.date then a :: b :: bs else b :: orderedInsertDesc a bs

/-- Stable descending sort, the embedding of
`new_entries.sort(key=lambda x: x['date'], reverse=True)` (line 100): a
stable sort is determined up to this insertion sort by its comparison key. -/
def sortDesc : List Article → List Article
  | [] => []
  | a :: rest => orderedInsertDesc a (sortDesc rest)

/-- Insertion-ordered-dict assignment `m[k] = v`: replace the value of an
existing key in place, otherwise append the binding. -/
def dictUpsert (m : List (String × List Article)) (k : String) (v : List Article) :
    List (String × List Article) :=
  if m.any (fun p => p.1 = k) then m.map (fun p => if p.1 = k then (k, v) else p)
  else m ++ [(k, v)]

/-- The running state of `fetch_and_process_feeds`: the result dict, the seen
set, and the failure list. -/
structure AggState where
  byFeed : List (String × List Article)
  seen : List String
  failed : List String
deriving DecidableEq

/-- Body of the per-URL loop (lines 63-106).  A fetch/document-parse failure
(`fp url = none`, covering both `except` clauses) appends the URL to the
failure list; otherwise the feed is processed, the seen set is updated, and a
non-empty collected list is sorted and recorded under the feed title
(defaulting to the placeholder of line 69). -/
def processUrl (fp : String → Option Feed) (pd : String → Option Int) (cutoff : Int)
    (st : AggState) (url : String) : AggState :=
  match fp url with
  | none => { st with failed := st.failed ++ [url] }
  | some feed =>
    let r := processFeed pd cutoff st.seen feed
    if r.1 = [] then { st with seen := r.2 }
    else
      { byFeed := dictUpsert st.byFeed (feed.title.getD "Untitled Feed") (sortDesc r.1),
        seen := r.2,
        failed := st.failed }

/-- The per-URL loop run over the whole input list from the empty result
dict, the initial seen set and the empty failure list, with an already
computed cutoff instant. -/
def runFeeds (fp : String → Option Feed) (pd : String → Option Int) (cutoff : Int)
    (urls : List String) (seen : List String) : AggState :=
  urls.foldl (processUrl fp pd cutoff) ⟨[], seen, []⟩

/-- `fetch_and_process_feeds` (lines 46-108): the cutoff instant is computed
once per run as now minus `article_age_days` (a day being 86400 seconds on
the integer time line), then every feed is processed with that same cutoff. -/
def fetch_and_process_feeds (fp : String → Option Feed) (pd : String → Option Int)
    (now article_age_days : Int) (urls : List String) (seen : List String) : AggState :=
  runFeeds fp pd (now - article_age_days * 86400) urls seen

/-- Outcome of reading the seen-articles file: missing file, read error
(`IOError`), undecodable content (`json.JSONDecodeError`), or a decoded list
of link strings. -/
inductive SeenFile where
  | missing
  | ioError
  | jsonDecodeError
  | valid (links : List String)
deriving DecidableEq

/-- `load_seen_articles` (lines 28-37): a missing file returns the empty set,
the two caught exception classes return the empty set, and a decoded list is
turned into a set (first occurrences kept). -/
def load_seen_articles : SeenFile → List String
  | .missing => []
  | .ioError => []
  | .jsonDecodeError => []
  | .valid links => links.eraseDups

/-- All article links appearing anywhere in the result dict. -/
def outLinks (m : List (String × List Article)) : List String :=
  (m.map (fun p => p.2.map Article.link)).flatten

/-- Total article count of the digest,
`sum(len(articles) for articles in new_articles.values())`. -/
def totalArticles (m : List (String × List Article)) : Nat :=
  (m.map (fun p => p.2.length)).sum

/-- An entry that can never be accepted while `seen` holds at least the given
links: falsy link, already-seen link, falsy or unparseable date string, or a
date strictly older than the cutoff. -/
def entryDead (pd : String → Option Int) (cutoff : Int) (seen : List String)
    (e : RawEntry) : Prop :=
  e.link = none ∨
  (∃ link, e.link = some link ∧ (link = "" ∨ link ∈ seen)) ∨
  pubDateStr e = none ∨
  (∃ s, pubDateStr e = some s ∧ (s = "" ∨ pd s = none)) ∨
  (∃ s d, pubDateStr e = some s ∧ pd s = some d ∧ d < cutoff)

/-- Invariant carried along the per-URL loop for the dedup claims: result-dict
keys are distinct, the links in the result dict are distinct, every such link
is in the current seen set and none was in the initial seen set, and the
initial seen set is contained in the current one. -/
def DedupInv (seen₀ : List String) (st : AggState) : Prop :=
  (st.byFeed.map Prod.fst).Nodup ∧
  (outLinks st.byFeed).Nodup ∧
  (∀ l ∈ outLinks st.byFeed, l ∈ st.seen ∧ l ∉ seen₀) ∧
  ∀ l ∈ seen₀, l ∈ st.seen

/-- Concrete date table standing in for the external date-parsing routine in
the witness scenarios. -/
def pdA : String → Option Int := fun s =>
  if s = "100" then some 100
  else if s = "95" then some 95
  else if s = "90" then some 90
  else if s = "50" then some 50
  else if s = "5" then some 5
  else none

/-- Witness entry whose link is already seen before the run. -/
def eSeen : RawEntry := ⟨some "http://seen", some "S", some "100", none⟩

/-- Witness entry accepted from feed A with date 100. -/
def eA1 : RawEntry := ⟨some "http://a/1", some "A1", some "100", none⟩

/-- Witness entry accepted from feed A with date 90, link shared with feed B. -/
def eA2 : RawEntry := ⟨some "http://dup", some "A2", some "90", none⟩

/-- Witness entry of feed A strictly older than the cutoff. -/
def eA3 : RawEntry := ⟨some "http://a/old", some "A3", some "5", none⟩

/-- Witness feed A. -/
def fA : Feed := ⟨some "Feed A", [eSeen, eA1, eA2, eA3]⟩

/-- Witness entry of feed B sharing its link with feed A. -/
def eB1 : RawEntry := ⟨some "http://dup", some "B1", some "95", none⟩

/-- Witness entry accepted from feed B with date 50. -/
def eB2 : RawEntry := ⟨some "http://b/1", some "B2", some "50", none⟩

/-- Witness feed B. -/
def fB : Feed := ⟨some "Feed B", [eB1, eB2]⟩

/-- Witness fetch-and-parse table: two good URLs and every other URL failing. -/
def fpA : String → Option Feed := fun u =>
  if u = "urlA" then some fA else if u = "urlB" then some fB else none

/-- Witness initial seen set. -/
def seenA : List String := ["http://seen"]

/-- Witness URL list; the third URL fails to fetch. -/
def urlsA : List String := ["urlA", "urlB", "urlC"]

/-- Witness entry whose date string the date routine cannot parse. -/
def eBadDate : RawEntry := ⟨some "http://bad", some "Bad", some "nonsense", none⟩

/-- Witness feed without a title whose only entry is older than the cutoff,
so it yields zero qualifying articles. -/
def fE : Feed := ⟨none, [eA3]⟩

/-- Witness fetch-and-parse table extending `fpA` with the zero-yield feed. -/
def fpE : String → Option Feed := fun u =>
  if u = "urlE" then some fE else fpA u

/-- First witness feed for the title-clash scenario. -/
def fD1 : Feed := ⟨some "Dup Feed", [eA1]⟩

/-- Second witness feed for the title-clash scenario, same display title. -/
def fD2 : Feed := ⟨some "Dup Feed", [eB2]⟩

/-- Witness fetch-and-parse table for the title-clash scenario. -/
def fpD : String → Option Feed := fun u =>
  if u = "d1" then some fD1 else if u = "d2" then some fD2 else none

theorem processEntry_cases (pd : String → Option Int) (c : Int)
    (st : List Article × List String) (e : RawEntry) :
    (entryDead pd c st.2 e ∧ processEntry pd c st e = st) ∨
    ∃ link s d, e.link = some link ∧ link ≠ "" ∧ link ∉ st.2 ∧
      pubDateStr e = some s ∧ s ≠ "" ∧ pd s = some d ∧ c ≤ d ∧
      processEntry pd c st e = (st.1 ++ [mkArticle e link d], link :: st.2) := by
  rcases hl : e.link with _ | link
  · left
    exact ⟨Or.inl hl, by simp [processEntry, hl]⟩
  · by_cases h1 : link = "" ∨ link ∈ st.2
    · left
      exact ⟨Or.inr (Or.inl ⟨link, hl, h1⟩), by simp [processEntry, hl, h1]⟩
    · rcases hs : pubDateStr e with _ | s
      · left
        exact ⟨Or.inr (Or.inr (Or.inl hs)), by simp [processEntry, hl, h1, hs]⟩
      · by_cases h2 : s = ""
        · left
          exact ⟨Or.inr (Or.inr (Or.inr (Or.inl ⟨s, hs, Or.inl h2⟩))),
            by simp [processEntry, hl, h1, hs, h2]⟩
        · rcases hd : pd s with _ | d
          · left
            exact ⟨Or.inr (Or.inr (Or.inr (Or.inl ⟨s, hs, Or.inr hd⟩))),
              by simp [processEntry, hl, h1, hs, h2, hd]⟩
          · by_cases h3 : c ≤ d
            · right
              push_neg at h1
              exact ⟨link, s, d, rfl, h1.1, h1.2, rfl, h2, hd, h3, by
                simp [processEntry, hl, h1, hs, h2, hd, h3]⟩
            · left
              exact ⟨Or.inr (Or.inr (Or.inr (Or.inr ⟨s, d, hs, hd, lt_of_not_le h3⟩))),
                by simp [processEntry, hl, h1, hs, h2, hd, h3]⟩

theorem foldE_spec (pd : String → Option Int) (c : Int) :
    ∀ (es : List RawEntry) (acc : List Article) (seen : List String),
    ∃ tl : List Article,
      (es.foldl (processEntry pd c) (acc, seen)).1 = acc ++ tl ∧
      (es.foldl (processEntry pd c) (acc, seen)).2 = (tl.map Article.link).reverse ++ seen ∧
      (tl.map Article.link).Nodup ∧
      ∀ a ∈ tl, a.link ∉ seen ∧ c ≤ a.date := by
  intro es
  induction es with
  | nil =>
    intro acc seen
    exact ⟨[], by simp, by simp, by simp, by simp⟩
  | cons e es ih =>
    intro acc seen
    rw [List.foldl_cons]
    rcases processEntry_cases pd c (acc, seen) e with ⟨-, hcase⟩ |
      ⟨link, s, d, hl, hne, hnm, hs, hsne, hd, hcd, hcase⟩
    · rw [hcase]; exact ih acc seen
    · rw [hcase]
      obtain ⟨tl, h1, h2, h3, h4⟩ := ih (acc ++ [mkArticle e link d]) (link :: seen)
      refine ⟨mkArticle e link d :: tl, ?_, ?_, ?_, ?_⟩
      · rw [h1]; simp
      · rw [h2]; simp [mkArticle]
      · refine List.nodup_cons.mpr ⟨?_, h3⟩
        intro hmem
        obtain ⟨b, hb, hblink⟩ := List.mem_map.mp hmem
        exact (h4 b hb).1 (by simp [hblink, mkArticle])
      · intro b hb
        rcases List.mem_cons.mp hb with rfl | hb
        · exact ⟨by simpa [mkArticle] using hnm, by simp [mkArticle, hcd]⟩
        · obtain ⟨hb1, hb2⟩ := h4 b hb
          exact ⟨fun hmem => hb1 (List.mem_cons_of_mem _ hmem), hb2⟩

/-- Specialization of `foldE_spec` to a whole feed: the final seen set is the
reversed accepted links prepended to the initial seen set, accepted links are
distinct, and every accepted article is fresh and within the window. -/
theorem processFeed_spec (pd : String → Option Int) (c : Int)
    (seen : List String) (f : Feed) :
    (processFeed pd c seen f).2 =
      ((processFeed pd c seen f).1.map Article.link).reverse ++ seen ∧
    ((processFeed pd c seen f).1.map Article.link).Nodup ∧
    ∀ a ∈ (processFeed pd c seen f).1, a.link ∉ seen ∧ c ≤ a.date := by
  obtain ⟨tl, h1, h2, h3, h4⟩ := foldE_spec pd c f.entries [] seen
  have htl : (processFeed pd c seen f).1 = tl := by
    simpa [processFeed] using h1
  refine ⟨?_, ?_, ?_⟩
  · rw [htl]; simpa [processFeed] using h2
  · rw [htl]; exact h3
  · rw [htl]; exact h4

/-- Links never leave the seen set across one feed. -/
theorem processFeed_seen_mono (pd : String → Option Int) (c : Int)
    (seen : List String) (f : Feed) (l : String) (hl : l ∈ seen) :
    l ∈ (processFeed pd c seen f).2 := by
  rw [(processFeed_spec pd c seen f).1]
  exact List.mem_append_right _ hl

/-- Every accepted link of a feed is in the feed's final seen set. -/
theorem processFeed_accepted_mem_seen (pd : String → Option Int) (c : Int)
    (seen : List String) (f : Feed) (a : Article)
    (ha : a ∈ (processFeed pd c seen f).1) :
    a.link ∈ (processFeed pd c seen f).2 := by
  rw [(processFeed_spec pd c seen f).1]
  exact List.mem_append_left _ (by simp; exact ⟨a, ha, rfl⟩)

theorem orderedInsertDesc_perm (a : Article) (l : List Article) :
    (orderedInsertDesc a l).Perm (a :: l) := by
  induction l with
  | nil => simp [orderedInsertDesc]
  | cons b bs ih =>
    by_cases h : b.date ≤ a.date
    · simp [orderedInsertDesc, h]
    · rw [orderedInsertDesc, if_neg h]
      exact (ih.cons b).trans (List.Perm.swap a b bs)

theorem sortDesc_perm (l : List Article) : (sortDesc l).Perm l := by
  induction l with
  | nil => simp [sortDesc]
  | cons a rest ih =>
    exact (orderedInsertDesc_perm a (sortDesc rest)).trans (ih.cons a)

theorem mem_sortDesc (l : List Article) (a : Article) :
    a ∈ sortDesc l ↔ a ∈ l :=
  (sortDesc_perm l).mem_iff

theorem sortDesc_length (l : List Article) : (sortDesc l).length = l.length :=
  (sortDesc_perm l).length_eq

theorem sortDesc_map_link_nodup (l : List Article)
    (h : (l.map Article.link).Nodup) : ((sortDesc l).map Article.link).Nodup :=
  (((sortDesc_perm l).map Article.link).nodup_iff).mpr h

theorem mem_orderedInsertDesc (a x : Article) (l : List Article) :
    x ∈ orderedInsertDesc a l ↔ x = a ∨ x ∈ l := by
  rw [(orderedInsertDesc_perm a l).mem_iff, List.mem_cons]

theorem orderedInsertDesc_pairwise (a : Article) (l : List Article)
    (h : l.Pairwise (fun x y => y.date ≤ x.date)) :
    (orderedInsertDesc a l).Pairwise (fun x y => y.date ≤ x.date) := by
  induction l with
  | nil => simp [orderedInsertDesc]
  | cons b bs ih =>
    obtain ⟨hb, hbs⟩ := List.pairwise_cons.mp h
    by_cases hba : b.date ≤ a.date
    · rw [orderedInsertDesc, if_pos hba]
      refine List.pairwise_cons.mpr ⟨?_, h⟩
      intro x hx
      rcases List.mem_cons.mp hx with rfl | hx
      · exact hba
      · exact le_trans (hb x hx) hba
    · rw [orderedInsertDesc, if_neg hba]
      refine List.pairwise_cons.mpr ⟨?_, ih hbs⟩
      intro x hx
      rcases (mem_orderedInsertDesc a x bs).mp hx with rfl | hx
      · exact le_of_lt (lt_of_not_le hba)
      · exact hb x hx

/-- The output of `sortDesc` is non-increasing by date. -/
theorem sortDesc_pairwise (l : List Article) :
    (sortDesc l).Pairwise (fun x y => y.date ≤ x.date) := by
  induction l with
  | nil => simp [sortDesc]
  | cons a rest ih => exact orderedInsertDesc_pairwise a (sortDesc rest) ih

theorem filter_orderedInsertDesc (a : Article) (l : List Article) (d : Int) :
    (orderedInsertDesc a l).filter (fun x => decide (x.date = d)) =
      if a.date = d then a :: l.filter (fun x => decide (x.date = d))
      else l.filter (fun x => decide (x.date = d)) := by
  induction l with
  | nil =>
    by_cases h : a.date = d <;> simp [orderedInsertDesc, List.filter, h]
  | cons b bs ih =>
    by_cases hba : b.date ≤ a.date
    · rw [orderedInsertDesc, if_pos hba]
      by_cases ha : a.date = d <;> simp [List.filter, ha]
    · rw [orderedInsertDesc, if_neg hba]
      by_cases hb : b.date = d
      · have ha : ¬ a.date = d := by
          intro ha
          exact hba (by rw [hb, ha])
        simp [List.filter_cons, hb, ha, ih]
      · by_cases ha : a.date = d <;> simp [List.filter_cons, hb, ha, ih]

/-- Stability of `sortDesc`: for every date value, the subsequence of
articles carrying that date is unchanged by the sort. -/
theorem sortDesc_filter_date (l : List Article) (d : Int) :
    (sortDesc l).filter (fun x => decide (x.date = d)) =
      l.filter (fun x => decide (x.date = d)) := by
  induction l with
  | nil => simp [sortDesc]
  | cons a rest ih =>
    rw [sortDesc, filter_orderedInsertDesc, ih]
    by_cases ha : a.date = d <;> simp [List.filter_cons, ha]

theorem mem_outLinks (m : List (String × List Article)) (l : String) :
    l ∈ outLinks m ↔ ∃ p ∈ m, l ∈ p.2.map Article.link := by
  unfold outLinks
  constructor
  · intro h
    obtain ⟨L, hL, hl⟩ := List.mem_flatten.mp h
    obtain ⟨p, hp, rfl⟩ := List.mem_map.mp hL
    exact ⟨p, hp, hl⟩
  · rintro ⟨p, hp, hl⟩
    exact List.mem_flatten.mpr ⟨p.2.map Article.link, List.mem_map.mpr ⟨p, hp, rfl⟩, hl⟩

theorem mem_dictUpsert (m : List (String × List Article)) (k : String)
    (v : List Article) (p : String × List Article) (h : p ∈ dictUpsert m k v) :
    p = (k, v) ∨ (p ∈ m ∧ p.1 ≠ k) := by
  unfold dictUpsert at h
  by_cases hk : m.any (fun p => p.1 = k) = true
  · rw [if_pos hk] at h
    obtain ⟨q, hq, rfl⟩ := List.mem_map.mp h
    by_cases hq1 : q.1 = k
    · left; simp [hq1]
    · right; simpa [hq1] using hq
  · rw [if_neg hk] at h
    rcases List.mem_append.mp h with hm | hkv
    · right
      refine ⟨hm, ?_⟩
      simp only [List.any_eq_true, decide_eq_true_eq, not_exists, not_and] at hk
      exact hk p hm
    · left; simpa using hkv

theorem dictUpsert_keys_nodup (m : List (String × List Article)) (k : String)
    (v : List Article) (h : (m.map Prod.fst).Nodup) :
    ((dictUpsert m k v).map Prod.fst).Nodup := by
  unfold dictUpsert
  by_cases hk : m.any (fun p => p.1 = k) = true
  · rw [if_pos hk, List.map_map]
    have : m.map (Prod.fst ∘ fun p => if p.1 = k then (k, v) else p) = m.map Prod.fst := by
      apply List.map_congr_left
      intro p _
      by_cases hp : p.1 = k <;> simp [hp]
    rw [this]; exact h
  · rw [if_neg hk, List.map_append]
    simp only [List.any_eq_true, decide_eq_true_eq, not_exists, not_and] at hk
    refine List.Nodup.append h (by simp) ?_
    intro x hx hx'
    simp only [List.map_cons, List.map_nil, List.mem_cons, List.not_mem_nil,
      or_false] at hx'
    obtain ⟨q, hq, hq1⟩ := List.mem_map.mp hx
    exact hk q hq (by rw [hq1, hx'])

theorem mem_outLinks_dictUpsert (m : List (String × List Article)) (k : String)
    (v : List Article) (l : String) (h : l ∈ outLinks (dictUpsert m k v)) :
    l ∈ outLinks m ∨ l ∈ v.map Article.link := by
  obtain ⟨p, hp, hl⟩ := (mem_outLinks _ l).mp h
  rcases mem_dictUpsert m k v p hp with rfl | ⟨hpm, _⟩
  · right; exact hl
  · left; exact (mem_outLinks m l).mpr ⟨p, hpm, hl⟩

theorem outLinks_dictUpsert_nodup (m : List (String × List Article)) (k : String)
    (v : List Article)
    (hkeys : (m.map Prod.fst).Nodup)
    (hm : (outLinks m).Nodup)
    (hv : (v.map Article.link).Nodup)
    (hdisj : ∀ l ∈ v.map Article.link, l ∉ outLinks m) :
    (outLinks (dictUpsert m k v)).Nodup := by
  have hmem : ∀ p ∈ m, ∀ l ∈ p.2.map Article.link, l ∈ outLinks m := by
    intro p hp l hl
    exact (mem_outLinks m l).mpr ⟨p, hp, hl⟩
  have hflat := List.nodup_flatten.mp (by simpa [outLinks] using hm)
  have hpairs : m.Pairwise
      (fun p q => (p.2.map Article.link).Disjoint (q.2.map Article.link)) :=
    List.pairwise_map.mp hflat.2
  have hne : m.Pairwise (fun p q => p.1 ≠ q.1) :=
    List.pairwise_map.mp hkeys
  unfold dictUpsert
  by_cases hk : m.any (fun p => p.1 = k) = true
  · rw [if_pos hk]
    rw [outLinks, List.map_map]
    refine List.nodup_flatten.mpr ⟨?_, ?_⟩
    · intro L hL
      obtain ⟨p, hp, hLp⟩ := List.mem_map.mp hL
      by_cases hp1 : p.1 = k
      · rw [← hLp]; simpa [hp1] using hv
      · rw [← hLp]
        refine hflat.1 _ ?_
        simp only [Function.comp, hp1, if_neg hp1]
        exact List.mem_map.mpr ⟨p, hp, rfl⟩
    · rw [List.pairwise_map]
      refine (hpairs.and hne).imp_of_mem ?_
      intro p q hp hq hpq
      by_cases hp1 : p.1 = k
      · have hq1 : ¬ q.1 = k := fun h => hpq.2 (by rw [hp1, h])
        simp only [Function.comp, hp1, hq1, if_pos hp1, if_neg hq1]
        intro l hl hl'
        exact hdisj l hl (hmem q hq l hl')
      · by_cases hq1 : q.1 = k
        · simp only [Function.comp, hp1, hq1, if_neg hp1, if_pos hq1]
          intro l hl hl'
          exact hdisj l hl' (hmem p hp l hl)
        · simp only [Function.comp, if_neg hp1, if_neg hq1]
          exact hpq.1
  · rw [if_neg hk]
    have happ : outLinks (m ++ [(k, v)]) = outLinks m ++ v.map Article.link := by
      simp [outLinks]
    rw [happ]
    refine List.Nodup.append hm hv ?_
    intro x hx hx'
    exact hdisj x hx' hx

theorem processUrl_none (fp : String → Option Feed) (pd : String → Option Int)
    (c : Int) (st : AggState) (u : String) (h : fp u = none) :
    processUrl fp pd c st u = { st with failed := st.failed ++ [u] } := by
  simp [processUrl, h]

theorem processUrl_some_empty (fp : String → Option Feed) (pd : String → Option Int)
    (c : Int) (st : AggState) (u : String) (feed : Feed) (h : fp u = some feed)
    (he : (processFeed pd c st.seen feed).1 = []) :
    processUrl fp pd c st u = { st with seen := (processFeed pd c st.seen feed).2 } := by
  simp [processUrl, h, he]

theorem processUrl_some_nonempty (fp : String → Option Feed) (pd : String → Option Int)
    (c : Int) (st : AggState) (u : String) (feed : Feed) (h : fp u = some feed)
    (he : (processFeed pd c st.seen feed).1 ≠ []) :
    processUrl fp pd c st u =
      ⟨dictUpsert st.byFeed (feed.title.getD "Untitled Feed")
          (sortDesc (processFeed pd c st.seen feed).1),
        (processFeed pd c st.seen feed).2, st.failed⟩ := by
  simp [processUrl, h, he]

theorem processUrl_seen_mono (fp : String → Option Feed) (pd : String → Option Int)
    (c : Int) (st : AggState) (u : String) (l : String) (hl : l ∈ st.seen) :
    l ∈ (processUrl fp pd c st u).seen := by
  rcases h : fp u with _ | feed
  · rw [processUrl_none fp pd c st u h]; exact hl
  · by_cases he : (processFeed pd c st.seen feed).1 = []
    · rw [processUrl_some_empty fp pd c st u feed h he]
      exact processFeed_seen_mono pd c st.seen feed l hl
    · rw [processUrl_some_nonempty fp pd c st u feed h he]
      exact processFeed_seen_mono pd c st.seen feed l hl

theorem foldUrls_seen_mono (fp : String → Option Feed) (pd : String → Option Int)
    (c : Int) :
    ∀ (urls : List String) (st : AggState) (l : String), l ∈ st.seen →
      l ∈ (urls.foldl (processUrl fp pd c) st).seen := by
  intro urls
  induction urls with
  | nil => intro st l hl; exact hl
  | cons u rest ih =>
    intro st l hl
    rw [List.foldl_cons]
    exact ih _ l (processUrl_seen_mono fp pd c st u l hl)

theorem processUrl_dedupInv (fp : String → Option Feed) (pd : String → Option Int)
    (c : Int) (seen₀ : List String) (st : AggState) (u : String)
    (h : DedupInv seen₀ st) : DedupInv seen₀ (processUrl fp pd c st u) := by
  obtain ⟨hkeys, hnd, hlinks, hinit⟩ := h
  rcases hfp : fp u with _ | feed
  · rw [processUrl_none fp pd c st u hfp]
    exact ⟨hkeys, hnd, hlinks, hinit⟩
  · by_cases he : (processFeed pd c st.seen feed).1 = []
    · rw [processUrl_some_empty fp pd c st u feed hfp he]
      refine ⟨hkeys, hnd, ?_, ?_⟩
      · intro l hl
        exact ⟨processFeed_seen_mono pd c st.seen feed l (hlinks l hl).1,
          (hlinks l hl).2⟩
      · intro l hl
        exact processFeed_seen_mono pd c st.seen feed l (hinit l hl)
    · rw [processUrl_some_nonempty fp pd c st u feed hfp he]
      obtain ⟨hseen_eq, hnodup_new, hfresh⟩ := processFeed_spec pd c st.seen feed
      have hnew_not_out : ∀ l ∈ (sortDesc (processFeed pd c st.seen feed).1).map
          Article.link, l ∉ outLinks st.byFeed := by
        intro l hl hout
        obtain ⟨a, ha, rfl⟩ := List.mem_map.mp hl
        have ha' : a ∈ (processFeed pd c st.seen feed).1 :=
          (mem_sortDesc _ a).mp ha
        exact (hfresh a ha').1 (hlinks _ hout).1
      refine ⟨?_, ?_, ?_, ?_⟩
      · exact dictUpsert_keys_nodup st.byFeed _ _ hkeys
      · exact outLinks_dictUpsert_nodup st.byFeed _ _ hkeys hnd
          (sortDesc_map_link_nodup _ hnodup_new) hnew_not_out
      · intro l hl
        rcases mem_outLinks_dictUpsert st.byFeed _ _ l hl with hold | hnew
        · exact ⟨processFeed_seen_mono pd c st.seen feed l (hlinks l hold).1,
            (hlinks l hold).2⟩
        · obtain ⟨a, ha, rfl⟩ := List.mem_map.mp hnew
          have ha' : a ∈ (processFeed pd c st.seen feed).1 :=
            (mem_sortDesc _ a).mp ha
          refine ⟨processFeed_accepted_mem_seen pd c st.seen feed a ha', ?_⟩
          intro hmem
          exact (hfresh a ha').1 (hinit _ hmem)
      · intro l hl
        exact processFeed_seen_mono pd c st.seen feed l (hinit l hl)

theorem foldUrls_dedupInv (fp : String → Option Feed) (pd : String → Option Int)
    (c : Int) (seen₀ : List String) :
    ∀ (urls : List String) (st : AggState), DedupInv seen₀ st →
      DedupInv seen₀ (urls.foldl (processUrl fp pd c) st) := by
  intro urls
  induction urls with
  | nil => intro st h; exact h
  | cons u rest ih =>
    intro st h
    rw [List.foldl_cons]
    exact ih _ (processUrl_dedupInv fp pd c seen₀ st u h)

theorem runFeeds_dedupInv (fp : String → Option Feed) (pd : String → Option Int)
    (c : Int) (urls : List String) (seen₀ : List String) :
    DedupInv seen₀ (runFeeds fp pd c urls seen₀) := by
  refine foldUrls_dedupInv fp pd c seen₀ urls ⟨[], seen₀, []⟩ ?_
  refine ⟨by simp, by simp [outLinks], ?_, fun l hl => hl⟩
  intro l hl
  simp [outLinks] at hl

theorem foldUrls_byFeed_origin (fp : String → Option Feed) (pd : String → Option Int)
    (c : Int) :
    ∀ (urls : List String) (st : AggState) (p : String × List Article),
      p ∈ (urls.foldl (processUrl fp pd c) st).byFeed →
      p ∈ st.byFeed ∨ ∃ u ∈ urls, ∃ feed s, fp u = some feed ∧
        p.1 = feed.title.getD "Untitled Feed" ∧
        p.2 = sortDesc (processFeed pd c s feed).1 := by
  intro urls
  induction urls with
  | nil => intro st p hp; left; exact hp
  | cons u rest ih =>
    intro st p hp
    rw [List.foldl_cons] at hp
    rcases ih _ p hp with hmem | ⟨u', hu', feed, s, h1, h2, h3⟩
    · rcases hfp : fp u with _ | feed
      · rw [processUrl_none fp pd c st u hfp] at hmem
        left; exact hmem
      · by_cases he : (processFeed pd c st.seen feed).1 = []
        · rw [processUrl_some_empty fp pd c st u feed hfp he] at hmem
          left; exact hmem
        · rw [processUrl_some_nonempty fp pd c st u feed hfp he] at hmem
          rcases mem_dictUpsert _ _ _ p hmem with rfl | ⟨hpm, _⟩
          · right
            exact ⟨u, by simp, feed, st.seen, hfp, rfl, rfl⟩
          · left; exact hpm
    · right; exact ⟨u', by simp [hu'], feed, s, h1, h2, h3⟩

/-- C1: no output article carries a link that was in the seen set at run
start, and across the whole output map every link occurs at most once — in
particular a link shared by the entries of two feeds survives under at most
one feed, the earliest in input order to encounter it, because an accepted
link enters the shared seen set at once and later occurrences are skipped. -/
theorem C1_dedup (fp : String → Option Feed) (pd : String → Option Int)
    (now days : Int) (urls seen₀ : List String) :
    (∀ t arts,
        (t, arts) ∈ (fetch_and_process_feeds fp pd now days urls seen₀).byFeed →
        ∀ a ∈ arts, a.link ∉ seen₀) ∧
    (outLinks (fetch_and_process_feeds fp pd now days urls seen₀).byFeed).Nodup ∧
    (∀ (st : List Article × List String) (e : RawEntry) (link : String),
        e.link = some link → link ∈ st.2 →
        processEntry pd (now - days * 86400) st e = st) := by
  obtain ⟨-, hnd, hlinks, -⟩ := runFeeds_dedupInv fp pd (now - days * 86400) urls seen₀
  refine ⟨?_, hnd, ?_⟩
  · intro t arts hmem a ha
    have hout : a.link ∈
        outLinks (fetch_and_process_feeds fp pd now days urls seen₀).byFeed :=
      (mem_outLinks _ _).mpr ⟨(t, arts), hmem, List.mem_map.mpr ⟨a, ha, rfl⟩⟩
    exact (hlinks _ hout).2
  · intro st e link hl hm
    have hcond : link = "" ∨ link ∈ st.2 := Or.inr hm
    simp [processEntry, hl, hcond]

theorem C1_dedup_witness :
    (("http://a/1" : String) ∉ seenA ∧
      (outLinks (fetch_and_process_feeds fpA pdA 10 0 urlsA seenA).byFeed).Nodup) ∧
    processEntry pdA (10 - 0 * 86400) ([], ["http://dup"]) eB1 =
      ([], ["http://dup"]) := by
  refine ⟨⟨?_, (C1_dedup fpA pdA 10 0 urlsA seenA).2.1⟩, ?_⟩
  · exact (C1_dedup fpA pdA 10 0 urlsA seenA).1 "Feed A"
      [⟨"A1", "http://a/1", 100⟩, ⟨"A2", "http://dup", 90⟩] (by decide)
      ⟨"A1", "http://a/1", 100⟩ (by decide)
  · exact (C1_dedup fpA pdA 10 0 urlsA seenA).2.2 ([], ["http://dup"]) eB1
      "http://dup" (by decide) (by decide)

/-- C2: the recency test is inclusive.  For an entry with a fresh non-empty
link and a resolvable date: if the date is at or after the cutoff (in
particular equal to it) the entry is accepted, and if it is strictly older
the per-entry step leaves the state untouched, so the entry is neither
collected nor is its link added to the seen set.  Across one feed, any link
in the final seen set is either an old one or the link of an accepted
article within the window; and every article anywhere in the output of a run
has a date at or after the single per-run cutoff `now - days·86400`. -/
theorem C2_recency (pd : String → Option Int) (c : Int) :
    (∀ (st : List Article × List String) (e : RawEntry) (link s : String) (d : Int),
        e.link = some link → link ≠ "" → link ∉ st.2 →
        pubDateStr e = some s → s ≠ "" → pd s = some d →
        (c ≤ d →
          processEntry pd c st e = (st.1 ++ [mkArticle e link d], link :: st.2)) ∧
        (d < c → processEntry pd c st e = st)) ∧
    (∀ (seen : List String) (f : Feed) (l : String),
        l ∈ (processFeed pd c seen f).2 →
        l ∈ seen ∨ ∃ a ∈ (processFeed pd c seen f).1, a.link = l ∧ c ≤ a.date) ∧
    (∀ (fp : String → Option Feed) (now days : Int) (urls seen₀ : List String)
        (t : String) (arts : List Article),
        (t, arts) ∈ (fetch_and_process_feeds fp pd now days urls seen₀).byFeed →
        ∀ a ∈ arts, now - days * 86400 ≤ a.date) := by
  refine ⟨?_, ?_, ?_⟩
  · intro st e link s d hl hne hnm hs hsne hd
    have h1 : ¬(link = "" ∨ link ∈ st.2) := by
      intro h; rcases h with h | h
      · exact hne h
      · exact hnm h
    constructor
    · intro hcd
      simp [processEntry, hl, h1, hs, hsne, hd, hcd]
    · intro hlt
      simp [processEntry, hl, h1, hs, hsne, hd, not_le.mpr hlt]
  · intro seen f l hl
    obtain ⟨hseen_eq, -, hfresh⟩ := processFeed_spec pd c seen f
    rw [hseen_eq] at hl
    rcases List.mem_append.mp hl with hnew | hold
    · right
      rw [List.mem_reverse] at hnew
      obtain ⟨a, ha, rfl⟩ := List.mem_map.mp hnew
      exact ⟨a, ha, rfl, (hfresh a ha).2⟩
    · left; exact hold
  · intro fp now days urls seen₀ t arts hmem a ha
    rcases foldUrls_byFeed_origin fp pd (now - days * 86400) urls ⟨[], seen₀, []⟩
        (t, arts) hmem with h | ⟨u, _, feed, s, _, _, h3⟩
    · simp at h
    · have ha' : a ∈ (processFeed pd (now - days * 86400) s feed).1 := by
        rw [show arts = (t, arts).2 from rfl, h3] at ha
        exact (mem_sortDesc _ a).mp ha
      exact ((processFeed_spec pd (now - days * 86400) s feed).2.2 a ha').2

theorem C2_recency_witness :
    processEntry pdA 90 ([], []) eA2 =
      ([mkArticle eA2 "http://dup" 90], ["http://dup"]) ∧
    processEntry pdA 90 ([], []) eA3 = ([], []) := by
  constructor
  · exact ((C2_recency pdA 90).1 ([], []) eA2 "http://dup" "90" 90 (by decide)
      (by decide) (by decide) (by decide) (by decide) (by decide)).1 (by decide)
  · exact ((C2_recency pdA 90).1 ([], []) eA3 "http://a/old" "5" 5 (by decide)
      (by decide) (by decide) (by decide) (by decide) (by decide)).2 (by decide)

/-- C4: loading the seen set from a missing, unreadable, or undecodable file
yields the empty set; these three outcomes are returned as ordinary values
(the two exception classes are caught, a missing file is tested up front),
never propagated as errors. -/
theorem C4_load_degraded (fs : SeenFile)
    (h : fs = SeenFile.missing ∨ fs = SeenFile.ioError ∨
      fs = SeenFile.jsonDecodeError) :
    load_seen_articles fs = [] := by
  rcases h with rfl | rfl | rfl <;> rfl

theorem C4_load_degraded_witness : load_seen_articles SeenFile.jsonDecodeError = [] :=
  C4_load_degraded SeenFile.jsonDecodeError (Or.inr (Or.inr rfl))

theorem processEntry_dateFail (pd : String → Option Int) (c : Int)
    (st : List Article × List String) (e : RawEntry)
    (he : pubDateStr e = none ∨ ∃ s, pubDateStr e = some s ∧ (s = "" ∨ pd s = none)) :
    processEntry pd c st e = st := by
  rcases processEntry_cases pd c st e with ⟨-, hcase⟩ |
    ⟨link, s, d, hl, hne, hnm, hs, hsne, hd, hcd, hcase⟩
  · exact hcase
  · exfalso
    rcases he with he | ⟨s', hs', he⟩
    · rw [he] at hs; exact Option.noConfusion hs
    · rw [hs'] at hs
      have : s' = s := Option.some.inj hs
      subst this
      rcases he with he | he
      · exact hsne he
      · rw [he] at hd; exact Option.noConfusion hd

/-- C5: an entry whose date string is absent, empty, or unparseable leaves
the per-entry state untouched; deleting such an entry from a feed's entry
list does not change the feed's processing at all, so every other entry is
handled exactly as before; and a feed whose fetch and document-level parse
succeeded never adds to the failure list, no matter what its entries hold. -/
theorem C5_entry_skip (pd : String → Option Int) (c : Int) :
    (∀ (st : List Article × List String) (e : RawEntry),
        (pubDateStr e = none ∨ ∃ s, pubDateStr e = some s ∧ (s = "" ∨ pd s = none)) →
        processEntry pd c st e = st) ∧
    (∀ (seen : List String) (title : Option String) (es₁ es₂ : List RawEntry)
        (e : RawEntry),
        (pubDateStr e = none ∨ ∃ s, pubDateStr e = some s ∧ (s = "" ∨ pd s = none)) →
        processFeed pd c seen ⟨title, es₁ ++ e :: es₂⟩ =
          processFeed pd c seen ⟨title, es₁ ++ es₂⟩) ∧
    (∀ (fp : String → Option Feed) (st : AggState) (u : String) (feed : Feed),
        fp u = some feed → (processUrl fp pd c st u).failed = st.failed) := by
  refine ⟨processEntry_dateFail pd c, ?_, ?_⟩
  · intro seen title es₁ es₂ e he
    show (es₁ ++ e :: es₂).foldl (processEntry pd c) ([], seen) =
      (es₁ ++ es₂).foldl (processEntry pd c) ([], seen)
    rw [List.foldl_append, List.foldl_append, List.foldl_cons,
      processEntry_dateFail pd c _ e he]
  · intro fp st u feed hfp
    by_cases he : (processFeed pd c st.seen feed).1 = []
    · rw [processUrl_some_empty fp pd c st u feed hfp he]
    · rw [processUrl_some_nonempty fp pd c st u feed hfp he]

theorem C5_entry_skip_witness :
    processFeed pdA 10 seenA ⟨some "Feed A", [eBadDate, eA1]⟩ =
      processFeed pdA 10 seenA ⟨some "Feed A", [eA1]⟩ ∧
    (processUrl fpA pdA 10 ⟨[], seenA, []⟩ "urlA").failed = [] := by
  constructor
  · exact (C5_entry_skip pdA 10).2.1 seenA (some "Feed A") [] [eA1] eBadDate
      (Or.inr ⟨"nonsense", by decide, Or.inr (by decide)⟩)
  · exact (C5_entry_skip pdA 10).2.2 fpA ⟨[], seenA, []⟩ "urlA" fA (by decide)

/-- C6: each article list in the output map is non-increasing by date, and it
is the stable descending sort of the list its feed collected in native entry
order: for every date value, the articles carrying that date stand in
exactly the relative order in which the feed's entry loop collected them. -/
theorem C6_sorted_stable (fp : String → Option Feed) (pd : String → Option Int)
    (now days : Int) (urls seen₀ : List String) (t : String) (arts : List Article)
    (hmem : (t, arts) ∈ (fetch_and_process_feeds fp pd now days urls seen₀).byFeed) :
    arts.Pairwise (fun x y => y.date ≤ x.date) ∧
    ∃ u ∈ urls, ∃ feed s, fp u = some feed ∧
      t = feed.title.getD "Untitled Feed" ∧
      arts = sortDesc (processFeed pd (now - days * 86400) s feed).1 ∧
      ∀ d : Int, arts.filter (fun x => decide (x.date = d)) =
        (processFeed pd (now - days * 86400) s feed).1.filter
          (fun x => decide (x.date = d)) := by
  rcases foldUrls_byFeed_origin fp pd (now - days * 86400) urls ⟨[], seen₀, []⟩
      (t, arts) hmem with h | ⟨u, hu, feed, s, h1, h2, h3⟩
  · simp at h
  · have h2' : t = feed.title.getD "Untitled Feed" := h2
    have h3' : arts = sortDesc (processFeed pd (now - days * 86400) s feed).1 := h3
    refine ⟨?_, u, hu, feed, s, h1, h2', h3', ?_⟩
    · rw [h3']; exact sortDesc_pairwise _
    · intro d; rw [h3', sortDesc_filter_date]

theorem C6_sorted_stable_witness :
    ([⟨"A1", "http://a/1", 100⟩, ⟨"A2", "http://dup", 90⟩] : List Article).Pairwise
        (fun x y => y.date ≤ x.date) ∧
    ∃ u ∈ urlsA, ∃ feed s, fpA u = some feed ∧
      "Feed A" = feed.title.getD "Untitled Feed" ∧
      ([⟨"A1", "http://a/1", 100⟩, ⟨"A2", "http://dup", 90⟩] : List Article) =
        sortDesc (processFeed pdA (10 - 0 * 86400) s feed).1 ∧
      ∀ d : Int,
        ([⟨"A1", "http://a/1", 100⟩, ⟨"A2", "http://dup", 90⟩] : List Article).filter
            (fun x => decide (x.date = d)) =
          (processFeed pdA (10 - 0 * 86400) s feed).1.filter
            (fun x => decide (x.date = d)) :=
  C6_sorted_stable fpA pdA 10 0 urlsA seenA "Feed A"
    [⟨"A1", "http://a/1", 100⟩, ⟨"A2", "http://dup", 90⟩] (by decide)

/-- C7: a feed whose fetch and parse succeed but whose entries yield zero
qualifying articles contributes nothing at all: the run's result with that
URL in the input list equals the run's result without it, so the feed shows
up neither in the output map nor in the failure list, and the seen set is
untouched. -/
theorem C7_zero_yield (fp : String → Option Feed) (pd : String → Option Int)
    (c : Int) (pre post : List String) (u : String) (seen₀ : List String)
    (feed : Feed) (hfp : fp u = some feed)
    (he : (processFeed pd c (runFeeds fp pd c pre seen₀).seen feed).1 = []) :
    runFeeds fp pd c (pre ++ u :: post) seen₀ = runFeeds fp pd c (pre ++ post) seen₀ := by
  unfold runFeeds at he ⊢
  rw [List.foldl_append, List.foldl_append, List.foldl_cons]
  congr 1
  rw [processUrl_some_empty fp pd c _ u feed hfp he]
  have h2 := (processFeed_spec pd c
    (List.foldl (processUrl fp pd c) ⟨[], seen₀, []⟩ pre).seen feed).1
  rw [he] at h2
  simp only [List.map_nil, List.reverse_nil, List.nil_append] at h2
  rw [h2]

theorem C7_zero_yield_witness :
    runFeeds fpE pdA 10 ["urlA", "urlE", "urlB"] seenA =
      runFeeds fpE pdA 10 ["urlA", "urlB"] seenA :=
  C7_zero_yield fpE pdA 10 ["urlA"] ["urlB"] "urlE" seenA fE (by decide) (by decide)

/-- C9: the seen set grows monotonically at every granularity: one per-entry
step never removes a link, one per-URL step never removes a link, and the
run's final seen set contains the entire initial seen set. -/
theorem C9_seen_monotone (fp : String → Option Feed) (pd : String → Option Int)
    (c now days : Int) :
    (∀ (st : List Article × List String) (e : RawEntry) (l : String),
        l ∈ st.2 → l ∈ (processEntry pd c st e).2) ∧
    (∀ (st : AggState) (u : String) (l : String),
        l ∈ st.seen → l ∈ (processUrl fp pd c st u).seen) ∧
    (∀ (urls seen₀ : List String) (l : String),
        l ∈ seen₀ → l ∈ (fetch_and_process_feeds fp pd now days urls seen₀).seen) := by
  refine ⟨?_, processUrl_seen_mono fp pd c, ?_⟩
  · intro st e l hl
    rcases processEntry_cases pd c st e with ⟨-, h⟩ |
      ⟨link, s, d, _, _, _, _, _, _, _, h⟩
    · rw [h]; exact hl
    · rw [h]; exact List.mem_cons_of_mem _ hl
  · intro urls seen₀ l hl
    exact foldUrls_seen_mono fp pd (now - days * 86400) urls ⟨[], seen₀, []⟩ l hl

theorem C9_seen_monotone_witness :
    ("http://seen" : String) ∈
      (fetch_and_process_feeds fpA pdA 10 0 urlsA seenA).seen :=
  (C9_seen_monotone fpA pdA 10 10 0).2.2 urlsA seenA "http://seen" (by decide)

theorem processUrl_congr (fp : String → Option Feed) (pd : String → Option Int)
    (c : Int) (st₁ st₂ : AggState) (u : String)
    (hb : st₁.byFeed = st₂.byFeed) (hs : st₁.seen = st₂.seen) :
    (processUrl fp pd c st₁ u).byFeed = (processUrl fp pd c st₂ u).byFeed ∧
    (processUrl fp pd c st₁ u).seen = (processUrl fp pd c st₂ u).seen := by
  rcases hfp : fp u with _ | feed
  · rw [processUrl_none fp pd c st₁ u hfp, processUrl_none fp pd c st₂ u hfp]
    exact ⟨hb, hs⟩
  · by_cases he : (processFeed pd c st₁.seen feed).1 = []
    · have he₂ : (processFeed pd c st₂.seen feed).1 = [] := by rw [← hs]; exact he
      rw [processUrl_some_empty fp pd c st₁ u feed hfp he,
        processUrl_some_empty fp pd c st₂ u feed hfp he₂]
      exact ⟨hb, by rw [hs]⟩
    · have he₂ : (processFeed pd c st₂.seen feed).1 ≠ [] := by rw [← hs]; exact he
      rw [processUrl_some_nonempty fp pd c st₁ u feed hfp he,
        processUrl_some_nonempty fp pd c st₂ u feed hfp he₂]
      exact ⟨by rw [hb, hs], by rw [hs]⟩

theorem foldUrls_congr (fp : String → Option Feed) (pd : String → Option Int)
    (c : Int) :
    ∀ (urls : List String) (st₁ st₂ : AggState),
      st₁.byFeed = st₂.byFeed → st₁.seen = st₂.seen →
      (urls.foldl (processUrl fp pd c) st₁).byFeed =
        (urls.foldl (processUrl fp pd c) st₂).byFeed ∧
      (urls.foldl (processUrl fp pd c) st₁).seen =
        (urls.foldl (processUrl fp pd c) st₂).seen := by
  intro urls
  induction urls with
  | nil => intro st₁ st₂ hb hs; exact ⟨hb, hs⟩
  | cons u rest ih =>
    intro st₁ st₂ hb hs
    rw [List.foldl_cons, List.foldl_cons]
    obtain ⟨hb', hs'⟩ := processUrl_congr fp pd c st₁ st₂ u hb hs
    exact ih _ _ hb' hs'

theorem foldUrls_failed (fp : String → Option Feed) (pd : String → Option Int)
    (c : Int) :
    ∀ (urls : List String) (st : AggState),
      (urls.foldl (processUrl fp pd c) st).failed =
        st.failed ++ urls.filter (fun u => (fp u).isNone) := by
  intro urls
  induction urls with
  | nil => intro st; simp
  | cons u rest ih =>
    intro st
    rw [List.foldl_cons]
    rcases hfp : fp u with _ | feed
    · rw [processUrl_none fp pd c st u hfp, ih]
      simp [List.filter_cons, hfp]
    · have hfail : (processUrl fp pd c st u).failed = st.failed := by
        by_cases he : (processFeed pd c st.seen feed).1 = []
        · rw [processUrl_some_empty fp pd c st u feed hfp he]
        · rw [processUrl_some_nonempty fp pd c st u feed hfp he]
      rw [ih, hfail]
      simp [List.filter_cons, hfp]

theorem foldUrls_filter_good (fp : String → Option Feed) (pd : String → Option Int)
    (c : Int) :
    ∀ (urls : List String) (st : AggState),
      (urls.foldl (processUrl fp pd c) st).byFeed =
        ((urls.filter (fun u => (fp u).isSome)).foldl (processUrl fp pd c) st).byFeed ∧
      (urls.foldl (processUrl fp pd c) st).seen =
        ((urls.filter (fun u => (fp u).isSome)).foldl (processUrl fp pd c) st).seen := by
  intro urls
  induction urls with
  | nil => intro st; exact ⟨rfl, rfl⟩
  | cons u rest ih =>
    intro st
    rcases hfp : fp u with _ | feed
    · rw [List.foldl_cons, processUrl_none fp pd c st u hfp]
      have hcongr := foldUrls_congr fp pd c rest
        { st with failed := st.failed ++ [u] } st rfl rfl
      have hfil : (u :: rest).filter (fun u => (fp u).isSome) =
          rest.filter (fun u => (fp u).isSome) := by
        simp [List.filter_cons, hfp]
      rw [hfil]
      exact ⟨hcongr.1.trans (ih st).1, hcongr.2.trans (ih st).2⟩
    · have hfil : (u :: rest).filter (fun u => (fp u).isSome) =
          u :: rest.filter (fun u => (fp u).isSome) := by
        simp [List.filter_cons, hfp]
      rw [hfil, List.foldl_cons, List.foldl_cons]
      exact ih (processUrl fp pd c st u)

/-- C3: a fetch failure or document-level parse failure of one feed appends
exactly that feed's URL to the failure list — the failure list of a run is
precisely the input URLs whose fetch-and-parse failed, in input order — and
never aborts the run: the output map and the final seen set are exactly
those of the run over the successfully fetched URLs alone, so every other
feed is still processed and its qualifying articles appear. -/
theorem C3_failure_isolation (fp : String → Option Feed) (pd : String → Option Int)
    (now days : Int) (urls seen₀ : List String) :
    (fetch_and_process_feeds fp pd now days urls seen₀).failed =
      urls.filter (fun u => (fp u).isNone) ∧
    (fetch_and_process_feeds fp pd now days urls seen₀).byFeed =
      (fetch_and_process_feeds fp pd now days
        (urls.filter (fun u => (fp u).isSome)) seen₀).byFeed ∧
    (fetch_and_process_feeds fp pd now days urls seen₀).seen =
      (fetch_and_process_feeds fp pd now days
        (urls.filter (fun u => (fp u).isSome)) seen₀).seen := by
  refine ⟨?_, ?_, ?_⟩
  · have h := foldUrls_failed fp pd (now - days * 86400) urls ⟨[], seen₀, []⟩
    simpa using h
  · exact (foldUrls_filter_good fp pd (now - days * 86400) urls ⟨[], seen₀, []⟩).1
  · exact (foldUrls_filter_good fp pd (now - days * 86400) urls ⟨[], seen₀, []⟩).2

theorem entryDead_mono (pd : String → Option Int) (c : Int) (s s' : List String)
    (e : RawEntry) (hsub : ∀ l ∈ s, l ∈ s') (hd : entryDead pd c s e) :
    entryDead pd c s' e := by
  unfold entryDead at hd ⊢
  rcases hd with h | ⟨link, hl, h⟩ | h | h | h
  · exact Or.inl h
  · refine Or.inr (Or.inl ⟨link, hl, ?_⟩)
    rcases h with h | h
    · exact Or.inl h
    · exact Or.inr (hsub link h)
  · exact Or.inr (Or.inr (Or.inl h))
  · exact Or.inr (Or.inr (Or.inr (Or.inl h)))
  · exact Or.inr (Or.inr (Or.inr (Or.inr h)))

theorem entryDead_skip (pd : String → Option Int) (c : Int) (s : List String)
    (st : List Article × List String) (e : RawEntry)
    (hsub : ∀ l ∈ s, l ∈ st.2) (hd : entryDead pd c s e) :
    processEntry pd c st e = st := by
  rcases processEntry_cases pd c st e with ⟨-, h⟩ |
    ⟨link, s', d, hl, hne, hnm, hs, hsne, hdp, hcd, -⟩
  · exact h
  · exfalso
    unfold entryDead at hd
    rcases hd with h | ⟨link', hl', h⟩ | h | ⟨s'', hs'', h⟩ | ⟨s'', d', hs'', hdp', h⟩
    · rw [h] at hl; exact Option.noConfusion hl
    · rw [hl] at hl'
      have heq : link = link' := Option.some.inj hl'
      subst heq
      rcases h with h | h
      · exact hne h
      · exact hnm (hsub link h)
    · rw [h] at hs; exact Option.noConfusion hs
    · rw [hs''] at hs
      have heq : s'' = s' := Option.some.inj hs
      subst heq
      rcases h with h | h
      · exact hsne h
      · rw [h] at hdp; exact Option.noConfusion hdp
    · rw [hs''] at hs
      have heq : s'' = s' := Option.some.inj hs
      subst heq
      rw [hdp'] at hdp
      have heqd : d' = d := Option.some.inj hdp
      subst heqd
      exact absurd hcd (not_le.mpr h)

theorem processEntry_seen_mono (pd : String → Option Int) (c : Int)
    (st : List Article × List String) (e : RawEntry) (l : String) (hl : l ∈ st.2) :
    l ∈ (processEntry pd c st e).2 := by
  rcases processEntry_cases pd c st e with ⟨-, h⟩ | ⟨link, s, d, _, _, _, _, _, _, _, h⟩
  · rw [h]; exact hl
  · rw [h]; exact List.mem_cons_of_mem _ hl

theorem foldE_seen_mono (pd : String → Option Int) (c : Int) :
    ∀ (es : List RawEntry) (st : List Article × List String) (l : String),
      l ∈ st.2 → l ∈ (es.foldl (processEntry pd c) st).2 := by
  intro es
  induction es with
  | nil => intro st l hl; exact hl
  | cons e es ih =>
    intro st l hl
    rw [List.foldl_cons]
    exact ih _ l (processEntry_seen_mono pd c st e l hl)

theorem foldE_dead (pd : String → Option Int) (c : Int) (s : List String) :
    ∀ (es : List RawEntry) (st : List Article × List String),
      (∀ e ∈ es, entryDead pd c s e) → (∀ l ∈ s, l ∈ st.2) →
      es.foldl (processEntry pd c) st = st := by
  intro es
  induction es with
  | nil => intro st _ _; rfl
  | cons e es ih =>
    intro st hdead hsub
    rw [List.foldl_cons, entryDead_skip pd c s st e hsub (hdead e (by simp))]
    exact ih st (fun e' he' => hdead e' (List.mem_cons_of_mem _ he')) hsub

theorem foldE_makes_dead (pd : String → Option Int) (c : Int) :
    ∀ (es : List RawEntry) (st : List Article × List String) (e : RawEntry),
      e ∈ es → entryDead pd c (es.foldl (processEntry pd c) st).2 e := by
  intro es
  induction es with
  | nil => intro st e he; cases he
  | cons e' es ih =>
    intro st e he
    rw [List.foldl_cons]
    rcases List.mem_cons.mp he with rfl | he
    · rcases processEntry_cases pd c st e with ⟨hdead, heq⟩ |
        ⟨link, s, d, hl, _, _, _, _, _, _, heq⟩
      · rw [heq]
        exact entryDead_mono pd c st.2 _ e (fun l hl => foldE_seen_mono pd c es st l hl)
          hdead
      · rw [heq]
        refine Or.inr (Or.inl ⟨link, hl, Or.inr ?_⟩)
        exact foldE_seen_mono pd c es _ link (by simp)
    · exact ih _ e he

theorem processFeed_makes_dead (pd : String → Option Int) (c : Int)
    (seen : List String) (f : Feed) (e : RawEntry) (he : e ∈ f.entries) :
    entryDead pd c (processFeed pd c seen f).2 e :=
  foldE_makes_dead pd c f.entries ([], seen) e he

theorem processUrl_seen_some (fp : String → Option Feed) (pd : String → Option Int)
    (c : Int) (st : AggState) (u : String) (feed : Feed) (hfp : fp u = some feed) :
    (processUrl fp pd c st u).seen = (processFeed pd c st.seen feed).2 := by
  by_cases he : (processFeed pd c st.seen feed).1 = []
  · rw [processUrl_some_empty fp pd c st u feed hfp he]
  · rw [processUrl_some_nonempty fp pd c st u feed hfp he]

theorem foldUrls_makes_dead (fp : String → Option Feed) (pd : String → Option Int)
    (c : Int) :
    ∀ (urls : List String) (st : AggState) (u : String) (feed : Feed) (e : RawEntry),
      u ∈ urls → fp u = some feed → e ∈ feed.entries →
      entryDead pd c (urls.foldl (processUrl fp pd c) st).seen e := by
  intro urls
  induction urls with
  | nil => intro st u feed e hu; cases hu
  | cons u' rest ih =>
    intro st u feed e hu hfp he
    rw [List.foldl_cons]
    rcases List.mem_cons.mp hu with rfl | hu
    · have hdead : entryDead pd c (processUrl fp pd c st u).seen e := by
        rw [processUrl_seen_some fp pd c st u feed hfp]
        exact processFeed_makes_dead pd c st.seen feed e he
      exact entryDead_mono pd c _ _ e
        (fun l hl => foldUrls_seen_mono fp pd c rest _ l hl) hdead
    · exact ih _ u feed e hu hfp he

theorem foldUrls_dead_empty (fp : String → Option Feed) (pd : String → Option Int)
    (c : Int) (s : List String) :
    ∀ (urls : List String) (st : AggState),
      (∀ u ∈ urls, ∀ feed, fp u = some feed → ∀ e ∈ feed.entries, entryDead pd c s e) →
      (∀ l ∈ s, l ∈ st.seen) →
      (urls.foldl (processUrl fp pd c) st).byFeed = st.byFeed ∧
      (urls.foldl (processUrl fp pd c) st).seen = st.seen := by
  intro urls
  induction urls with
  | nil => intro st _ _; exact ⟨rfl, rfl⟩
  | cons u rest ih =>
    intro st hdead hsub
    rw [List.foldl_cons]
    have hdead' : ∀ u' ∈ rest, ∀ feed, fp u' = some feed →
        ∀ e ∈ feed.entries, entryDead pd c s e :=
      fun u' hu' => hdead u' (List.mem_cons_of_mem _ hu')
    rcases hfp : fp u with _ | feed
    · rw [processUrl_none fp pd c st u hfp]
      exact ih { st with failed := st.failed ++ [u] } hdead' hsub
    · have hpf : processFeed pd c st.seen feed = ([], st.seen) :=
        foldE_dead pd c s feed.entries ([], st.seen)
          (hdead u (by simp) feed hfp) hsub
      have he : (processFeed pd c st.seen feed).1 = [] := by rw [hpf]
      rw [processUrl_some_empty fp pd c st u feed hfp he]
      obtain ⟨ihb, ihs⟩ :=
        ih { st with seen := (processFeed pd c st.seen feed).2 } hdead'
          (by intro l hl; show l ∈ (processFeed pd c st.seen feed).2
              rw [hpf]; exact hsub l hl)
      refine ⟨ihb, ihs.trans ?_⟩
      rw [hpf]

/-- C8: running the pipeline a second time, starting from the seen set the
first run produced, over the same fetch results, the same date parses, and
the same cutoff, yields an empty result map: every entry is either
permanently unacceptable or its link is already in the carried-over seen
set. -/
theorem C8_idempotence (fp : String → Option Feed) (pd : String → Option Int)
    (now days : Int) (urls seen₀ : List String) :
    (fetch_and_process_feeds fp pd now days urls
      (fetch_and_process_feeds fp pd now days urls seen₀).seen).byFeed = [] := by
  have hdead : ∀ u ∈ urls, ∀ feed, fp u = some feed → ∀ e ∈ feed.entries,
      entryDead pd (now - days * 86400)
        (fetch_and_process_feeds fp pd now days urls seen₀).seen e :=
    fun u hu feed hfp e he =>
      foldUrls_makes_dead fp pd (now - days * 86400) urls ⟨[], seen₀, []⟩
        u feed e hu hfp he
  exact (foldUrls_dead_empty fp pd (now - days * 86400)
    (fetch_and_process_feeds fp pd now days urls seen₀).seen urls
    ⟨[], (fetch_and_process_feeds fp pd now days urls seen₀).seen, []⟩
    hdead (fun l hl => hl)).1

/-- C10: when two distinct URLs both succeed with new articles and their
documents yield the same display title (possibly the shared placeholder),
the later feed's sorted list replaces the earlier feed's list at that title:
the result map holds only the later list, none of the earlier feed's
accepted articles survives anywhere in the map, the digest's total article
count counts only the later list — yet the earlier feed's links were still
added to the seen set. -/
theorem C10_title_replace (fp : String → Option Feed) (pd : String → Option Int)
    (now days : Int) (u₁ u₂ : String) (seen₀ : List String) (f₁ f₂ : Feed)
    (hne : u₁ ≠ u₂) (h1 : fp u₁ = some f₁) (h2 : fp u₂ = some f₂)
    (ht : f₁.title.getD "Untitled Feed" = f₂.title.getD "Untitled Feed")
    (hr1 : (processFeed pd (now - days * 86400) seen₀ f₁).1 ≠ [])
    (hr2 : (processFeed pd (now - days * 86400)
        (processFeed pd (now - days * 86400) seen₀ f₁).2 f₂).1 ≠ []) :
    (fetch_and_process_feeds fp pd now days [u₁, u₂] seen₀).byFeed =
      [(f₂.title.getD "Untitled Feed",
        sortDesc (processFeed pd (now - days * 86400)
          (processFeed pd (now - days * 86400) seen₀ f₁).2 f₂).1)] ∧
    (∀ a ∈ (processFeed pd (now - days * 86400) seen₀ f₁).1,
      a.link ∈ (fetch_and_process_feeds fp pd now days [u₁, u₂] seen₀).seen) ∧
    (∀ a ∈ (processFeed pd (now - days * 86400) seen₀ f₁).1,
      ∀ t arts,
        (t, arts) ∈ (fetch_and_process_feeds fp pd now days [u₁, u₂] seen₀).byFeed →
        a ∉ arts) ∧
    totalArticles (fetch_and_process_feeds fp pd now days [u₁, u₂] seen₀).byFeed =
      (processFeed pd (now - days * 86400)
        (processFeed pd (now - days * 86400) seen₀ f₁).2 f₂).1.length := by
  set c := now - days * 86400 with hc
  have hst1 : processUrl fp pd c ⟨[], seen₀, []⟩ u₁ =
      ⟨[(f₁.title.getD "Untitled Feed", sortDesc (processFeed pd c seen₀ f₁).1)],
        (processFeed pd c seen₀ f₁).2, []⟩ := by
    rw [processUrl_some_nonempty fp pd c ⟨[], seen₀, []⟩ u₁ f₁ h1 hr1]
    simp [dictUpsert]
  have hst2 : processUrl fp pd c
      ⟨[(f₁.title.getD "Untitled Feed", sortDesc (processFeed pd c seen₀ f₁).1)],
        (processFeed pd c seen₀ f₁).2, []⟩ u₂ =
      ⟨[(f₂.title.getD "Untitled Feed",
          sortDesc (processFeed pd c (processFeed pd c seen₀ f₁).2 f₂).1)],
        (processFeed pd c (processFeed pd c seen₀ f₁).2 f₂).2, []⟩ := by
    rw [processUrl_some_nonempty fp pd c _ u₂ f₂ h2 hr2]
    rw [ht]
    simp [dictUpsert]
  have hrun : fetch_and_process_feeds fp pd now days [u₁, u₂] seen₀ =
      ⟨[(f₂.title.getD "Untitled Feed",
          sortDesc (processFeed pd c (processFeed pd c seen₀ f₁).2 f₂).1)],
        (processFeed pd c (processFeed pd c seen₀ f₁).2 f₂).2, []⟩ := by
    show [u₁, u₂].foldl (processUrl fp pd c) ⟨[], seen₀, []⟩ = _
    rw [List.foldl_cons, List.foldl_cons, List.foldl_nil, hst1, hst2]
  refine ⟨?_, ?_, ?_, ?_⟩
  · rw [hrun]
  · intro a ha
    rw [hrun]
    exact processFeed_seen_mono pd c (processFeed pd c seen₀ f₁).2 f₂ a.link
      (processFeed_accepted_mem_seen pd c seen₀ f₁ a ha)
  · intro a ha t arts hmem
    rw [hrun] at hmem
    have harts : arts =
        sortDesc (processFeed pd c (processFeed pd c seen₀ f₁).2 f₂).1 := by
      rcases List.mem_singleton.mp hmem with h
      exact congrArg Prod.snd h
    intro hin
    have hin₂ : a ∈ (processFeed pd c (processFeed pd c seen₀ f₁).2 f₂).1 := by
      rw [harts] at hin
      exact (mem_sortDesc _ a).mp hin
    have hfresh :=
      ((processFeed_spec pd c (processFeed pd c seen₀ f₁).2 f₂).2.2 a hin₂).1
    exact hfresh (processFeed_accepted_mem_seen pd c seen₀ f₁ a ha)
  · rw [hrun]
    simp [totalArticles, sortDesc_length]

theorem C10_title_replace_witness :
    (fetch_and_process_feeds fpD pdA 10 0 ["d1", "d2"] []).byFeed =
      [(fD2.title.getD "Untitled Feed",
        sortDesc (processFeed pdA (10 - 0 * 86400)
          (processFeed pdA (10 - 0 * 86400) [] fD1).2 fD2).1)] ∧
    (∀ a ∈ (processFeed pdA (10 - 0 * 86400) [] fD1).1,
      a.link ∈ (fetch_and_process_feeds fpD pdA 10 0 ["d1", "d2"] []).seen) ∧
    (∀ a ∈ (processFeed pdA (10 - 0 * 86400) [] fD1).1,
      ∀ t arts,
        (t, arts) ∈ (fetch_and_process_feeds fpD pdA 10 0 ["d1", "d2"] []).byFeed →
        a ∉ arts) ∧
    totalArticles (fetch_and_process_feeds fpD pdA 10 0 ["d1", "d2"] []).byFeed =
      (processFeed pdA (10 - 0 * 86400)
        (processFeed pdA (10 - 0 * 86400) [] fD1).2 fD2).1.length :=
  C10_title_replace fpD pdA 10 0 "d1" "d2" [] fD1 fD2 (by decide) (by decide)
    (by decide) (by decide) (by decide) (by decide)

end RSS
